import Mathlib

set_option maxRecDepth 20000

/-!
Shallow embedding of `src/flashcard_generator.py` (class `FlashcardGenerator`).

Modelling choices, recorded once here:

* Python strings are modelled as Lean `String`s and all of the string
  primitives the program uses (`str.split`, `str.strip`, `str.lower`,
  `str.isalnum`, `str.replace(old, new, 1)`, `re.sub` of non-word characters,
  `" ".join`) are re-implemented below on `List Char`, structurally recursive
  so that every definition evaluates inside the kernel.  The program only
  ever feeds them ASCII data in the claims below; the ASCII-level character
  classifiers of core Lean (`Char.isAlphanum`, `Char.isWhitespace`,
  `Char.toLower`) model the Python classifiers.
* The NLTK code paths (`sent_tokenize`, `word_tokenize`,
  `stopwords.words`) are external to the repository; the program wraps each
  of them in a `try/except` whose `except` branch is a self-contained
  fallback (`safe_sent_tokenize`, `safe_word_tokenize`, `get_stopwords`).
  The embedding models those fallback paths, which are the deterministic,
  dependency-free executions of the code and the subject of the spec's
  "must never fail" requirement.
* Randomness (`random.choice`, `random.sample`, `random.shuffle`) is
  threaded explicitly as a stream of natural number draws (`List Nat`).
  Each primitive consumes draws from the front of the stream; an index is
  taken modulo the length of the list being drawn from, so every possible
  outcome of the Python primitive corresponds to some stream.  `sample` and
  `shuffle` repeatedly extract an element and delete it, which reaches
  exactly the permutations/sub-multisets the Python primitives can produce.
* Python dict cards are modelled by the inductive type `Card`, one
  constructor per `type` tag the program builds.
-/

/-- Python `str.split()` with no argument (used as the fallback tokenizer and
for word counting): split on runs of whitespace, dropping empty pieces.
Accumulator based so that it is structurally recursive. -/
def wordsAux : List Char → List Char → List (List Char)
  | [], acc => if acc.isEmpty then [] else [acc.reverse]
  | c :: cs, acc =>
    if c.isWhitespace then
      if acc.isEmpty then wordsAux cs [] else acc.reverse :: wordsAux cs []
    else wordsAux cs (c :: acc)

/-- Python `sentence.split()` on strings. -/
def pySplitWS (s : String) : List String :=
  (wordsAux s.data []).map String.mk

/-- Python `text.split("." )`: split at every dot, keeping empty segments. -/
def splitOnDot : List Char → List (List Char)
  | [] => [[]]
  | c :: cs =>
    if c = '.' then [] :: splitOnDot cs
    else
      match splitOnDot cs with
      | [] => [[c]]
      | seg :: rest => (c :: seg) :: rest

/-- Python `str.strip()` on character lists: drop whitespace at both ends. -/
def chStrip (l : List Char) : List Char :=
  ((l.dropWhile Char.isWhitespace).reverse.dropWhile Char.isWhitespace).reverse

/-- Python `str.strip()`. -/
def pyStrip (s : String) : String := String.mk (chStrip s.data)

/-- Python `str.lower()`. -/
def pyLower (s : String) : String := String.mk (s.data.map Char.toLower)

/-- Python `str.isalnum()`: nonempty and every character alphanumeric. -/
def pyIsAlnum (s : String) : Bool :=
  !s.data.isEmpty && s.data.all Char.isAlphanum

/-- Python `re.sub(r"[^\w]", "", word.lower())` from
`create_fill_blank_from_sentence`: lowercase, then keep only word
characters (alphanumeric or underscore). -/
def cleanWord (w : String) : String :=
  String.mk ((pyLower w).data.filter (fun c => c.isAlphanum || c = '_'))

/-- Boolean list membership for strings (Python `in` on a list). -/
def memB (a : String) : List String → Bool
  | [] => false
  | b :: l => if a = b then true else memB a l

/-- Python `list.index(a)`: index of the first occurrence. -/
def idxOfStr (a : String) : List String → Nat
  | [] => 0
  | b :: l => if a = b then 0 else idxOfStr a l + 1

/-- Python `s.replace(old, new, 1)` on character lists: replace the first
(leftmost) occurrence of `old` as a substring, or leave the list unchanged
when `old` does not occur. -/
def replFirst (new old : List Char) : List Char → List Char
  | [] => []
  | c :: rest =>
    if old.isPrefixOf (c :: rest) then new ++ (c :: rest).drop old.length
    else c :: replFirst new old rest

/-- Python `s.replace(old, new, 1)` on strings. -/
def pyReplaceFirst (s old new : String) : String :=
  String.mk (replFirst new.data old.data s.data)

/-- Substring test on character lists. -/
def hasInfixCh (pat : List Char) : List Char → Bool
  | [] => pat.isEmpty
  | c :: rest => pat.isPrefixOf (c :: rest) || hasInfixCh pat rest

/-- Substring test on strings (Python `pat in s`). -/
def hasSubstr (s pat : String) : Bool := hasInfixCh pat.data s.data

/-- One draw from the explicit randomness stream. -/
def randNext (s : List Nat) : Nat × List Nat := (s.headD 0, s.tail)

/-- Model of `random.choice` on a list of strings: one draw picks an index. -/
def randChoiceStr (l : List String) (s : List Nat) : String × List Nat :=
  (l.getD (s.headD 0 % l.length) "", s.tail)

/-- Shared engine for `random.sample` and `random.shuffle`: repeatedly draw
an element of the remaining list and delete it, `fuel` times. -/
def pickGo {α : Type} [DecidableEq α] [Inhabited α] : Nat → List α → List Nat → List α × List Nat
  | 0, _, s => ([], s)
  | _ + 1, [], s => ([], s)
  | k + 1, a :: t, s =>
    let x := (a :: t).getD (s.headD 0 % (a :: t).length) default
    let r := pickGo k ((a :: t).erase x) s.tail
    (x :: r.1, r.2)

/-- Model of `random.sample(l, k)` (the program always calls it with `k` at most the
population size). -/
def pySample (k : Nat) (l : List String) (s : List Nat) : List String × List Nat :=
  pickGo k l s

/-- Model of `random.shuffle(l)` (returning the shuffled list). -/
def pyShuffle {α : Type} [DecidableEq α] [Inhabited α] (l : List α) (s : List Nat) :
    List α × List Nat :=
  pickGo l.length l s

/-- Insertion of one element for the stable sort below. -/
def insB {α : Type} (le : α → α → Bool) (a : α) : List α → List α
  | [] => [a]
  | b :: l => if le a b then a :: b :: l else b :: insB le a l

/-- Insertion sort with a Boolean comparison. -/
def isortB {α : Type} (le : α → α → Bool) : List α → List α
  | [] => []
  | a :: l => insB le a (isortB le l)

/-- Pair each element with its position, starting at `i`. -/
def withIdx {α : Type} : Nat → List α → List (Nat × α)
  | _, [] => []
  | i, a :: l => (i, a) :: withIdx (i + 1) l

/-- Comparison used to model Python `sorted(l, key=…, reverse=True)`, which
is a stable descending sort: strictly larger key first, and on equal keys
the original position decides.  On position-tagged elements with distinct
tags this linear order has a unique sorted arrangement, which is exactly the
one Python's stable sort produces. -/
def rankLeB {α : Type} (key : α → Nat) (p q : Nat × α) : Bool :=
  decide (key q.2 < key p.2) || (decide (key p.2 = key q.2) && decide (p.1 ≤ q.1))

/-- Python `sorted(l, key=key, reverse=True)` (stable). -/
def pySortDesc {α : Type} (key : α → Nat) (l : List α) : List α :=
  (isortB (rankLeB key) (withIdx 0 l)).map Prod.snd

/-- Deduplication keeping first occurrences, with an accumulator of already
seen elements; models the insertion order of the keys of a
`collections.Counter` (`nltk.FreqDist`). -/
def dedupFirstAux (seen : List String) : List String → List String
  | [] => []
  | w :: ws =>
    if memB w seen then dedupFirstAux seen ws
    else w :: dedupFirstAux (w :: seen) ws

/-- Keys of `FreqDist(l)` in first-occurrence order. -/
def dedupFirst (l : List String) : List String := dedupFirstAux [] l

/-- The fallback stopword set of `get_stopwords` (the `except` branch),
verbatim from the source. -/
def fallbackStopwords : List String :=
  ["a", "an", "the", "and", "or", "but", "if", "because", "as", "what",
   "while", "of", "to", "in", "for", "on", "by", "with", "about", "is", "are"]

/-- Embedding of `safe_word_tokenize` (fallback path): `text.lower().split()`. -/
def safe_word_tokenize (text : String) : List String := pySplitWS (pyLower text)

/-- Embedding of `safe_sent_tokenize` (fallback path):
`[s.strip() + "." for s in text.split(".") if s.strip()]`. -/
def safe_sent_tokenize (text : String) : List String :=
  (splitOnDot text.data).filterMap (fun seg =>
    let t := chStrip seg
    if t.isEmpty then none else some (String.mk (t ++ ['.'])))

/-- The word filter of `extract_keywords` (and of the MCQ content words):
`word.isalnum() and word not in stop_words and len(word) > 3`. -/
def elig (w : String) : Bool :=
  pyIsAlnum w && !memB w fallbackStopwords && decide (3 < w.length)

/-- Embedding of `filtered_words` inside `extract_keywords`. -/
def filteredWords (text : String) : List String :=
  (safe_word_tokenize text).filter elig

/-- Embedding of `extract_keywords(text, num_keywords)`: frequency ranking of the
filtered tokens via `FreqDist(...).most_common(num_keywords)`; `Counter`
iterates its keys in first-insertion order and `most_common` sorts them
stably by descending count. -/
def extract_keywords (text : String) (numKeywords : Nat) : List String :=
  (pySortDesc (fun w => (filteredWords text).count w)
    (dedupFirst (filteredWords text))).take numKeywords

/-- The keyword-count score of one sentence in `extract_key_sentences`. -/
def sentenceScore (kws : List String) (sentence : String) : Nat :=
  ((safe_word_tokenize sentence).filter (fun w => memB w kws)).length

/-- Embedding of `extract_key_sentences(text, num_sentences)`: keep sentences with at
least 8 words, score each by keyword occurrences, stable-sort descending by
score, take the top `num_sentences`; also returns the keyword list. -/
def extract_key_sentences (text : String) (numSentences : Nat) :
    List String × List String :=
  let sentences := safe_sent_tokenize text
  let kws := extract_keywords text 20
  let scored := (sentences.filter (fun s => decide (8 ≤ (pySplitWS s).length))).map
    (fun s => (s, sentenceScore kws s))
  (((pySortDesc Prod.snd scored).take numSentences).map Prod.fst, kws)

/-- The flashcard dictionaries the program builds, one constructor per
`type` tag. -/
inductive Card : Type
  | mcq (question : String) (options : List String) (answer : String)
      (correctIndex : Nat) (explain : String)
  | trueFalse (question : String) (answer : Bool) (explain : String)
  | fillBlank (question : String) (answer : String) (explain : String)
  deriving DecidableEq, Repr, Inhabited

/-- The `question` field. -/
def Card.questionOf : Card → String
  | .mcq q _ _ _ _ => q
  | .trueFalse q _ _ => q
  | .fillBlank q _ _ => q

/-- The `options` field of an MCQ card. -/
def Card.optionsOf : Card → List String
  | .mcq _ o _ _ _ => o
  | _ => []

/-- The string-valued `correct_answer` field. -/
def Card.answerOf : Card → String
  | .mcq _ _ a _ _ => a
  | .fillBlank _ a _ => a
  | .trueFalse _ _ _ => ""

/-- The `correct_index` field of an MCQ card. -/
def Card.correctIdx : Card → Nat
  | .mcq _ _ _ i _ => i
  | _ => 0

/-- The generic distractor pad of `create_mcq_from_sentence`, verbatim. -/
def generalDistractors : List String :=
  ["concept", "element", "process", "method", "system",
   "principle", "approach", "structure", "model", "theory"]

/-- The content words of a sentence in `create_mcq_from_sentence`: its
lowercased tokens that are alphanumeric, not stopwords and longer than 3. -/
def contentWords (sentence : String) : List String :=
  (safe_word_tokenize sentence).filter elig

/-- The blank placeholder `"________"`. -/
def blankMarker : String := "________"

/-- The distractor pool of `create_mcq_from_sentence`: the keywords other
than the answer with length above 2, padded with the generic list when
fewer than 3 remain. -/
def mcqPool (kws : List String) (target : String) : List String :=
  if (kws.filter (fun w => decide (w ≠ target) && decide (2 < w.length))).length < 3 then
    kws.filter (fun w => decide (w ≠ target) && decide (2 < w.length)) ++ generalDistractors
  else
    kws.filter (fun w => decide (w ≠ target) && decide (2 < w.length))

/-- The MCQ card record built by `create_mcq_from_sentence` from the chosen
answer and the shuffled option list. -/
def mcqBuild (sentence target : String) (opts : List String) : Card :=
  Card.mcq ("Complete the sentence: " ++ pyReplaceFirst sentence target blankMarker)
    opts target (idxOfStr target opts)
    ("The correct answer is \x27" ++ target ++ "\x27 based on the context.")

/-- Embedding of `create_mcq_from_sentence(sentence, keywords)`: pick a random content
word, blank its first occurrence, build a distractor pool from the keywords
(excluding the answer, length above 2), pad with the generic list when the
pool has fewer than 3 entries, sample 3 distractors, append the answer,
shuffle, and record the first index of the answer. -/
def create_mcq_from_sentence (sentence : String) (kws : List String) (s : List Nat) :
    Option Card × List Nat :=
  if (contentWords sentence).isEmpty then (none, s)
  else
    let pick := randChoiceStr (contentWords sentence) s
    let smp := pySample (min 3 (mcqPool kws pick.1).length) (mcqPool kws pick.1) pick.2
    let shf := pyShuffle (smp.1 ++ [pick.1]) smp.2
    (some (mcqBuild sentence pick.1 shf.1), shf.2)

/-- The always-emitted true card of `create_true_false_from_sentence`. -/
def trueCardOf (sentence : String) : Card :=
  Card.trueFalse sentence true "This statement is directly from the source text."

/-- The false card of `create_true_false_from_sentence`: the first
occurrence of `w` replaced by `repl`. -/
def falseCardOf (sentence w repl : String) : Card :=
  Card.trueFalse (pyReplaceFirst sentence w repl) false
    "This statement has been modified from the original text."

/-- The content words of the true/false generator: whitespace-split words
whose lowercased form is not a stopword and whose length exceeds 3 (note:
unlike the MCQ generator, no `isalnum` check and original casing kept). -/
def tfContentWords (sentence : String) : List String :=
  (pySplitWS sentence).filter
    (fun w => !memB (pyLower w) fallbackStopwords && decide (3 < w.length))

/-- The loop of `create_true_false_from_sentence`: for each content word in
turn draw one random keyword; at the first word whose drawn keyword differs
case-insensitively, return the true card and the substituted false card;
if the scan ends, return only the true card. -/
def tfGo (sentence : String) (kws : List String) :
    List String → List Nat → List Card × List Nat
  | [], s => ([trueCardOf sentence], s)
  | w :: ws, s =>
    let pick := randChoiceStr kws s
    if pyLower pick.1 ≠ pyLower w then
      ([trueCardOf sentence, falseCardOf sentence w pick.1], pick.2)
    else tfGo sentence kws ws pick.2

/-- The keyword drawn for the word at position `i` of the scanned content
word list: the true/false loop consumes exactly one stream draw per scanned
word, so word `i` draws from the stream after `i` draws. -/
def tfDraw (kws : List String) (s : List Nat) (i : Nat) : String :=
  kws.getD ((s.drop i).headD 0 % kws.length) ""

/-- Embedding of `create_true_false_from_sentence(sentence, keywords)`. -/
def create_true_false_from_sentence (sentence : String) (kws : List String)
    (s : List Nat) : Option (List Card) × List Nat :=
  if (pySplitWS sentence).length < 8 then (none, s)
  else if (tfContentWords sentence).isEmpty || kws.isEmpty then
    (some [trueCardOf sentence], s)
  else
    let r := tfGo sentence kws (tfContentWords sentence) s
    (some r.1, r.2)

/-- The qualification test of the fill-blank loop:
`clean_word in keywords and len(clean_word) > 3`. -/
def fbQual (kws : List String) (w : String) : Bool :=
  memB (cleanWord w) kws && decide (3 < (cleanWord w).length)

/-- First index and word (scanning left to right) passing `fbQual`. -/
def findQual (kws : List String) : List String → Option (Nat × String)
  | [] => none
  | w :: ws =>
    if fbQual kws w then some (0, w)
    else (findQual kws ws).map (fun p => (p.1 + 1, p.2))

/-- Python `" ".join(l)`. -/
def joinSp : List String → String
  | [] => ""
  | [a] => a
  | a :: b :: t => a ++ " " ++ joinSp (b :: t)

/-- Embedding of `create_fill_blank_from_sentence(sentence, keywords)`: needs at least 10
whitespace-separated words; blanks the first word whose cleaned lowercased
form is a keyword longer than 3 characters; the original word (with its
punctuation and casing) is the recorded answer. -/
def create_fill_blank_from_sentence (sentence : String) (kws : List String) :
    Option Card :=
  let ws := pySplitWS sentence
  if ws.length < 10 then none
  else
    match findQual kws ws with
    | none => none
    | some (i, w) =>
      some (Card.fillBlank ("Fill in the blank: " ++ joinSp (ws.set i blankMarker)) w
        ("The correct word is \x27" ++ w ++ "\x27 based on the context."))

/-- The MCQ phase of `generate_flashcards`: scan the given sentences (the
caller passes only the first `2 * num_mcq` ranked sentences), appending each
generated card and stopping as soon as the quota is reached. -/
def mcqLoop (kws : List String) (quota : Nat) :
    List String → Nat → List Nat → List Card × List Nat
  | [], _, s => ([], s)
  | sn :: rest, cnt, s =>
    let r := create_mcq_from_sentence sn kws s
    match r.1 with
    | none => mcqLoop kws quota rest cnt r.2
    | some c =>
      if quota ≤ cnt + 1 then ([c], r.2)
      else
        let r2 := mcqLoop kws quota rest (cnt + 1) r.2
        (c :: r2.1, r2.2)

/-- The true/false phase of `generate_flashcards`: scan all ranked
sentences, extending with at most the missing number of cards, until the
quota is reached. -/
def tfLoop (kws : List String) (quota : Nat) :
    List String → Nat → List Nat → List Card × List Nat
  | [], _, s => ([], s)
  | sn :: rest, cnt, s =>
    if quota ≤ cnt then ([], s)
    else
      let r := create_true_false_from_sentence sn kws s
      match r.1 with
      | none => tfLoop kws quota rest cnt r.2
      | some qs =>
        let add := qs.take (quota - cnt)
        let r2 := tfLoop kws quota rest (cnt + add.length) r.2
        (add ++ r2.1, r2.2)

/-- The fill-blank phase of `generate_flashcards` (no randomness). -/
def fillLoop (kws : List String) (quota : Nat) : List String → Nat → List Card
  | [], _ => []
  | sn :: rest, cnt =>
    if quota ≤ cnt then []
    else
      match create_fill_blank_from_sentence sn kws with
      | none => fillLoop kws quota rest cnt
      | some c => c :: fillLoop kws quota rest (cnt + 1)

/-- Specification-side exhaustive MCQ scan, following the spec's
deck-assembly words: attempt the MCQ generator on every given sentence in
order, with no quota, collecting every generated card and threading the
random stream.  The code's `mcqLoop` is proved below to return exactly the
first `quota` cards of this scan. -/
def mcqAll (kws : List String) : List String → List Nat → List Card × List Nat
  | [], s => ([], s)
  | sn :: rest, s =>
    let r := create_mcq_from_sentence sn kws s
    match r.1 with
    | none => mcqAll kws rest r.2
    | some c =>
      let r2 := mcqAll kws rest r.2
      (c :: r2.1, r2.2)

/-- Specification-side exhaustive true/false scan, following the spec's
deck-assembly words: attempt the true/false generator on every ranked
sentence in order, with no quota, concatenating every returned card group
and threading the random stream.  The code's `tfLoop` is proved below to
return exactly the first `quota` cards of this scan. -/
def tfAll (kws : List String) : List String → List Nat → List Card × List Nat
  | [], s => ([], s)
  | sn :: rest, s =>
    let r := create_true_false_from_sentence sn kws s
    match r.1 with
    | none => tfAll kws rest r.2
    | some qs =>
      let r2 := tfAll kws rest r.2
      (qs ++ r2.1, r2.2)

/-- Embedding of `generate_flashcards(text, num_mcq, num_tf, num_fill)`: empty deck on
empty or short (stripped length below 100) text or an empty sentence pool;
otherwise run the three phases (the MCQ phase only over the first
`2 * num_mcq` ranked sentences), concatenate, shuffle, and truncate to the
sum of the quotas. -/
def generate_flashcards (text : String) (numMcq numTf numFill : Nat)
    (s : List Nat) : List Card :=
  if text = "" ∨ (pyStrip text).length < 100 then []
  else
    let ks := extract_key_sentences text 25
    if ks.1.isEmpty then []
    else
      let m := mcqLoop ks.2 numMcq (ks.1.take (numMcq * 2)) 0 s
      let t := tfLoop ks.2 numTf ks.1 0 m.2
      let f := fillLoop ks.2 numFill ks.1 0
      let allCards := m.1 ++ t.1 ++ f
      let shf := pyShuffle allCards t.2
      shf.1.take (numMcq + numTf + numFill)

/-- The text used to refute C6: five short filler sentences contribute 20
distinct eligible keywords (crowding `zebra` out of the top 20), two
content-free 8-word sentences rank first and second in the pool, and the
third pool sentence contains the content word `zebra`. -/
def c6Text : String :=
  "alpha bravo chill delta a. every fancy grape hotel a. index jolly knife lemon a. mango noble ocean pearl a. quiet rocky sugar tiger a. a a a a a a a a. a a a a a a a a. a a a a a a zebra a a."

/-! ### Helper lemmas about the string and list primitives -/
theorem memB_iff (a : String) (l : List String) : memB a l = true ↔ a ∈ l := by
  induction l with
  | nil => simp [memB]
  | cons b t ih => by_cases h : a = b <;> simp [memB, h, ih]

theorem getD_mem {α : Type} (l : List α) (n : Nat) (d : α) (h : n < l.length) :
    l.getD n d ∈ l := by
  rw [List.getD_eq_getElem l d h]
  exact List.getElem_mem h

theorem pickGo_subset {α : Type} [DecidableEq α] [Inhabited α] :
    ∀ (k : Nat) (l : List α) (s : List Nat) (x : α), x ∈ (pickGo k l s).1 → x ∈ l
  | 0, l, s, x => by simp [pickGo]
  | k + 1, [], s, x => by simp [pickGo]
  | k + 1, a :: t, s, x => by
    simp only [pickGo]
    intro hx
    rcases List.mem_cons.1 hx with h | h
    · subst h
      exact getD_mem _ _ _ (Nat.mod_lt _ (Nat.succ_pos _))
    · exact List.mem_of_mem_erase (pickGo_subset k _ _ x h)

theorem idxOfStr_lt_length (a : String) (l : List String) (h : a ∈ l) :
    idxOfStr a l < l.length := by
  induction l with
  | nil => simp at h
  | cons b t ih =>
    by_cases hab : a = b
    · simp [idxOfStr, hab]
    · have ht : a ∈ t := by
        rcases List.mem_cons.1 h with h1 | h1
        · exact absurd h1 hab
        · exact h1
      simp only [idxOfStr, if_neg hab, List.length_cons]
      exact Nat.succ_lt_succ (ih ht)

theorem getD_idxOfStr (a : String) (l : List String) (h : a ∈ l) (d : String) :
    l.getD (idxOfStr a l) d = a := by
  induction l with
  | nil => simp at h
  | cons b t ih =>
    by_cases hab : a = b
    · simp [idxOfStr, hab]
    · have ht : a ∈ t := by
        rcases List.mem_cons.1 h with h1 | h1
        · exact absurd h1 hab
        · exact h1
      simp only [idxOfStr, if_neg hab, List.getD_cons_succ]
      exact ih ht

theorem randChoiceStr_mem (l : List String) (s : List Nat) (h : l ≠ []) :
    (randChoiceStr l s).1 ∈ l := by
  have hlen : 0 < l.length := List.length_pos.2 h
  exact getD_mem l _ "" (Nat.mod_lt _ hlen)

theorem pickGo_length {α : Type} [DecidableEq α] [Inhabited α] :
    ∀ (k : Nat) (l : List α) (s : List Nat), k ≤ l.length → (pickGo k l s).1.length = k
  | 0, l, s, _ => by simp [pickGo]
  | k + 1, [], s, h => by simp at h
  | k + 1, a :: t, s, h => by
    have hmem : (a :: t).getD (s.headD 0 % (a :: t).length) default ∈ a :: t :=
      getD_mem _ _ _ (Nat.mod_lt _ (Nat.succ_pos _))
    have hk : k ≤ ((a :: t).erase ((a :: t).getD (s.headD 0 % (a :: t).length) default)).length := by
      rw [List.length_erase_of_mem hmem]
      simp only [List.length_cons] at h ⊢
      omega
    simp only [pickGo]
    rw [List.length_cons, pickGo_length k _ s.tail hk]


theorem pickGo_perm {α : Type} [DecidableEq α] [Inhabited α] :
    ∀ (n : Nat) (l : List α) (s : List Nat), l.length ≤ n → (pickGo n l s).1.Perm l
  | 0, l, s, h => by
    have : l = [] := List.length_eq_zero.1 (Nat.le_zero.1 h)
    subst this
    simp [pickGo]
  | n + 1, [], s, _ => by simp [pickGo]
  | n + 1, a :: t, s, h => by
    have hmem : (a :: t).getD (s.headD 0 % (a :: t).length) default ∈ a :: t :=
      getD_mem _ _ _ (Nat.mod_lt _ (Nat.succ_pos _))
    have hlen : ((a :: t).erase ((a :: t).getD (s.headD 0 % (a :: t).length) default)).length ≤ n := by
      rw [List.length_erase_of_mem hmem]
      simp only [List.length_cons] at h ⊢
      omega
    have hrec := pickGo_perm n ((a :: t).erase ((a :: t).getD (s.headD 0 % (a :: t).length) default))
      s.tail hlen
    simp only [pickGo]
    exact ((hrec.cons _).trans (List.perm_cons_erase hmem).symm)


theorem pyShuffle_perm {α : Type} [DecidableEq α] [Inhabited α] (l : List α) (s : List Nat) :
    (pyShuffle l s).1.Perm l :=
  pickGo_perm l.length l s (Nat.le_refl _)

theorem length_dropWhileCh (p : Char → Bool) (l : List Char) :
    (l.dropWhile p).length ≤ l.length := by
  induction l with
  | nil => simp
  | cons c t ih =>
    rw [List.dropWhile_cons]
    by_cases h : p c
    · simp only [h, if_true]
      exact Nat.le_succ_of_le ih
    · simp [h]


theorem chStrip_length_le (l : List Char) : (chStrip l).length ≤ l.length := by
  have h1 : (((l.dropWhile Char.isWhitespace).reverse.dropWhile Char.isWhitespace).reverse).length
      = ((l.dropWhile Char.isWhitespace).reverse.dropWhile Char.isWhitespace).length :=
    List.length_reverse _
  have h2 : ((l.dropWhile Char.isWhitespace).reverse.dropWhile Char.isWhitespace).length
      ≤ (l.dropWhile Char.isWhitespace).reverse.length := length_dropWhileCh _ _
  have h3 : (l.dropWhile Char.isWhitespace).reverse.length
      = (l.dropWhile Char.isWhitespace).length := List.length_reverse _
  have h4 : (l.dropWhile Char.isWhitespace).length ≤ l.length := length_dropWhileCh _ _
  unfold chStrip
  omega

theorem pyStrip_length_le (s : String) : (pyStrip s).length ≤ s.length := by
  show (chStrip s.data).length ≤ s.data.length
  exact chStrip_length_le s.data

theorem replFirst_unchanged (new old : List Char) :
    ∀ (l : List Char), hasInfixCh old l = false → replFirst new old l = l
  | [], _ => rfl
  | c :: rest, h => by
    simp only [hasInfixCh, Bool.or_eq_false_iff] at h
    simp only [replFirst, h.1, Bool.false_eq_true, if_false]
    rw [replFirst_unchanged new old rest h.2]

theorem replFirst_spec (new old : List Char) (hold : old ≠ []) :
    ∀ (l : List Char), hasInfixCh old l = true →
      ∃ a b, l = a ++ old ++ b ∧ replFirst new old l = a ++ new ++ b ∧
        (∀ a2 b2, l = a2 ++ old ++ b2 → a.length ≤ a2.length)
  | [], h => by
    simp only [hasInfixCh, List.isEmpty_iff] at h
    exact absurd h hold
  | c :: rest, h => by
    by_cases hp : old.isPrefixOf (c :: rest)
    · obtain ⟨b, hb⟩ := List.isPrefixOf_iff_prefix.1 hp
      refine ⟨[], b, ?_, ?_, ?_⟩
      · simpa using hb.symm
      · simp only [replFirst, hp, if_true]
        rw [← hb, List.drop_left]
        simp
      · intro a2 b2 _
        simp
    · have h2 : hasInfixCh old rest = true := by
        simp only [hasInfixCh, Bool.or_eq_true] at h
        rcases h with h | h
        · exact absurd h hp
        · exact h
      obtain ⟨a, b, hl, hr, hmin⟩ := replFirst_spec new old hold rest h2
      refine ⟨c :: a, b, ?_, ?_, ?_⟩
      · simp [hl]
      · simp only [replFirst, hp, Bool.false_eq_true, if_false]
        simp [hr]
      · intro a2 b2 he
        cases a2 with
        | nil =>
          exfalso
          apply hp
          simp only [List.nil_append] at he
          exact List.isPrefixOf_iff_prefix.2 ⟨b2, by rw [← he]⟩
        | cons c2 a3 =>
          have hrest : rest = a3 ++ old ++ b2 := by
            have := he
            simp only [List.cons_append, List.cons.injEq] at this
            exact this.2
          simp only [List.length_cons]
          exact Nat.succ_le_succ (hmin a3 b2 hrest)

theorem tfGo_cases (sentence : String) (kws : List String) (hk : kws ≠ []) :
    ∀ (ws : List String) (s : List Nat),
      (tfGo sentence kws ws s).1 = [trueCardOf sentence] ∨
      ∃ w repl, w ∈ ws ∧ repl ∈ kws ∧ pyLower repl ≠ pyLower w ∧
        (tfGo sentence kws ws s).1 = [trueCardOf sentence, falseCardOf sentence w repl]
  | [], s => Or.inl rfl
  | w :: ws, s => by
    simp only [tfGo]
    by_cases h : pyLower (randChoiceStr kws s).1 ≠ pyLower w
    · right
      exact ⟨w, (randChoiceStr kws s).1, List.mem_cons_self w ws,
        randChoiceStr_mem kws s hk, h, by simp [h]⟩
    · simp only [if_neg h]
      rcases tfGo_cases sentence kws hk ws (randChoiceStr kws s).2 with h1 | ⟨w2, repl, hw2, hrepl, hne, heq⟩
      · exact Or.inl h1
      · exact Or.inr ⟨w2, repl, List.mem_cons_of_mem _ hw2, hrepl, hne, heq⟩

theorem tfGo_all_match (sentence : String) (kws : List String) (hk : kws ≠ []) :
    ∀ (ws : List String) (s : List Nat),
      (∀ w ∈ ws, ∀ k ∈ kws, pyLower k = pyLower w) →
      (tfGo sentence kws ws s).1 = [trueCardOf sentence]
  | [], s, _ => rfl
  | w :: ws, s, hall => by
    simp only [tfGo]
    have hmem := randChoiceStr_mem kws s hk
    have heq : pyLower (randChoiceStr kws s).1 = pyLower w :=
      hall w (List.mem_cons_self w ws) _ hmem
    simp only [heq, ne_eq, not_true_eq_false, if_false, ite_false]
    exact tfGo_all_match sentence kws hk ws (randChoiceStr kws s).2
      (fun w2 hw2 k hkm => hall w2 (List.mem_cons_of_mem _ hw2) k hkm)

theorem tail_drop_succ {α : Type} (s : List α) (j : Nat) : s.tail.drop j = s.drop (j + 1) := by
  cases s with
  | nil => simp
  | cons a t => rfl

theorem tfDraw_tail (kws : List String) (s : List Nat) (j : Nat) :
    tfDraw kws s.tail j = tfDraw kws s (j + 1) := by
  rw [tfDraw, tfDraw, tail_drop_succ]

theorem tfGo_first_diff (sentence : String) (kws : List String) :
    ∀ (ws : List String) (s : List Nat) (i : Nat), i < ws.length →
      pyLower (tfDraw kws s i) ≠ pyLower (ws.getD i "") →
      (∀ j, j < i → pyLower (tfDraw kws s j) = pyLower (ws.getD j "")) →
      (tfGo sentence kws ws s).1 =
        [trueCardOf sentence, falseCardOf sentence (ws.getD i "") (tfDraw kws s i)]
  | [], s, i, hi, _, _ => by simp at hi
  | w :: ws, s, 0, _, hdiff, _ => by
    have hdr : tfDraw kws s 0 = (randChoiceStr kws s).1 := rfl
    rw [hdr] at hdiff ⊢
    simp only [List.getD_cons_zero] at hdiff ⊢
    rw [tfGo, if_pos hdiff]
  | w :: ws, s, i + 1, hi, hdiff, hbefore => by
    have h0 : pyLower (tfDraw kws s 0) = pyLower w := by
      have := hbefore 0 (Nat.succ_pos i)
      simpa using this
    have hdr : tfDraw kws s 0 = (randChoiceStr kws s).1 := rfl
    rw [hdr] at h0
    rw [tfGo, if_neg (by simp [h0])]
    have htail : (randChoiceStr kws s).2 = s.tail := rfl
    rw [htail]
    have hi2 : i < ws.length := Nat.lt_of_succ_lt_succ (by simpa using hi)
    have hdiff2 : pyLower (tfDraw kws s.tail i) ≠ pyLower (ws.getD i "") := by
      rw [tfDraw_tail]
      simpa using hdiff
    have hbefore2 : ∀ j, j < i → pyLower (tfDraw kws s.tail j) = pyLower (ws.getD j "") := by
      intro j hj
      rw [tfDraw_tail]
      have := hbefore (j + 1) (Nat.succ_lt_succ hj)
      simpa using this
    have := tfGo_first_diff sentence kws ws s.tail i hi2 hdiff2 hbefore2
    rw [this, tfDraw_tail]
    simp

theorem tfGo_drawn_match (sentence : String) (kws : List String) :
    ∀ (ws : List String) (s : List Nat),
      (∀ i, i < ws.length → pyLower (tfDraw kws s i) = pyLower (ws.getD i "")) →
      (tfGo sentence kws ws s).1 = [trueCardOf sentence]
  | [], s, _ => rfl
  | w :: ws, s, hall => by
    have h0 : pyLower (tfDraw kws s 0) = pyLower w := by
      have := hall 0 (Nat.succ_pos _)
      simpa using this
    have hdr : tfDraw kws s 0 = (randChoiceStr kws s).1 := rfl
    rw [hdr] at h0
    rw [tfGo, if_neg (by simp [h0])]
    have htail : (randChoiceStr kws s).2 = s.tail := rfl
    rw [htail]
    refine tfGo_drawn_match sentence kws ws s.tail ?_
    intro i hi
    rw [tfDraw_tail]
    have := hall (i + 1) (Nat.succ_lt_succ hi)
    simpa using this

theorem tfGo_exists_stream (sentence : String) (kws : List String) (hk : kws ≠ []) :
    ∀ (ws : List String), (∃ w ∈ ws, ∃ k ∈ kws, pyLower k ≠ pyLower w) →
      ∃ s, (tfGo sentence kws ws s).1 ≠ [trueCardOf sentence]
  | [], h => by simp at h
  | w :: ws, h => by
    by_cases hW : ∃ k ∈ kws, pyLower k ≠ pyLower w
    · obtain ⟨k, hkm, hne⟩ := hW
      refine ⟨[idxOfStr k kws], ?_⟩
      have hlt := idxOfStr_lt_length k kws hkm
      have hpick : (randChoiceStr kws [idxOfStr k kws]).1 = k := by
        show kws.getD (([idxOfStr k kws] : List Nat).headD 0 % kws.length) "" = k
        simp only [List.headD_cons]
        rw [Nat.mod_eq_of_lt hlt]
        exact getD_idxOfStr k kws hkm ""
      rw [tfGo, if_pos (by rw [hpick]; exact hne)]
      simp [trueCardOf, falseCardOf]
    · push_neg at hW
      have hrest : ∃ w2 ∈ ws, ∃ k ∈ kws, pyLower k ≠ pyLower w2 := by
        obtain ⟨w2, hw2, k2, hk2, hne2⟩ := h
        rcases List.mem_cons.1 hw2 with he | hmem
        · exact absurd hne2 (by rw [he]; exact fun hx => hx (hW k2 hk2))
        · exact ⟨w2, hmem, k2, hk2, hne2⟩
      obtain ⟨s2, hs2⟩ := tfGo_exists_stream sentence kws hk ws hrest
      refine ⟨0 :: s2, ?_⟩
      have hmem0 : (randChoiceStr kws (0 :: s2)).1 ∈ kws := randChoiceStr_mem kws _ hk
      have heq0 : pyLower (randChoiceStr kws (0 :: s2)).1 = pyLower w :=
        hW _ hmem0
      rw [tfGo, if_neg (by simp [heq0])]
      exact hs2

theorem findQual_none_iff (kws : List String) :
    ∀ (l : List String), findQual kws l = none ↔ ∀ w ∈ l, fbQual kws w = false
  | [] => by simp [findQual]
  | w :: ws => by
    by_cases h : fbQual kws w
    · simp [findQual, h]
    · simp only [findQual, h, Bool.false_eq_true, if_false, Option.map_eq_none']
      rw [findQual_none_iff kws ws]
      constructor
      · intro hall w2 hw2
        rcases List.mem_cons.1 hw2 with h2 | h2
        · subst h2
          exact Bool.eq_false_iff.2 h
        · exact hall w2 h2
      · intro hall w2 hw2
        exact hall w2 (List.mem_cons_of_mem _ hw2)

theorem findQual_first (kws : List String) :
    ∀ (l : List String) (i : Nat), i < l.length →
      fbQual kws (l.getD i "") = true →
      (∀ j, j < i → fbQual kws (l.getD j "") = false) →
      findQual kws l = some (i, l.getD i "")
  | [], i, hi, _, _ => by simp at hi
  | w :: ws, 0, _, hq, _ => by
    simp only [List.getD_cons_zero] at hq ⊢
    simp [findQual, hq]
  | w :: ws, i + 1, hi, hq, hprev => by
    have h0 : fbQual kws w = false := by
      have := hprev 0 (Nat.succ_pos i)
      simpa using this
    simp only [List.getD_cons_succ] at hq ⊢
    have hi2 : i < ws.length := Nat.lt_of_succ_lt_succ (by simpa using hi)
    have hprev2 : ∀ j, j < i → fbQual kws (ws.getD j "") = false := by
      intro j hj
      have := hprev (j + 1) (Nat.succ_lt_succ hj)
      simpa using this
    rw [findQual, if_neg (by simp [h0]), findQual_first kws ws i hi2 hq hprev2]
    rfl

theorem insB_perm {α : Type} (le : α → α → Bool) (a : α) :
    ∀ (l : List α), (insB le a l).Perm (a :: l)
  | [] => List.Perm.refl _
  | b :: t => by
    simp only [insB]
    by_cases h : le a b
    · simp [h]
    · simp only [h, Bool.false_eq_true, if_false]
      exact ((insB_perm le a t).cons b).trans (List.Perm.swap a b t)

theorem isortB_perm {α : Type} (le : α → α → Bool) :
    ∀ (l : List α), (isortB le l).Perm l
  | [] => List.Perm.refl _
  | a :: t => by
    simp only [isortB]
    exact (insB_perm le a (isortB le t)).trans ((isortB_perm le t).cons a)

theorem mem_insB {α : Type} (le : α → α → Bool) (a x : α) (l : List α) :
    x ∈ insB le a l ↔ x = a ∨ x ∈ l := by
  have h := (insB_perm le a l).mem_iff (a := x)
  simpa using h

theorem pairwise_insB {α : Type} (le : α → α → Bool)
    (htot : ∀ x y, le x y = true ∨ le y x = true)
    (htrans : ∀ x y z, le x y = true → le y z = true → le x z = true)
    (a : α) : ∀ (l : List α), List.Pairwise (fun x y => le x y = true) l →
      List.Pairwise (fun x y => le x y = true) (insB le a l)
  | [], _ => by simp [insB]
  | b :: t, hp => by
    simp only [insB]
    by_cases h : le a b
    · simp only [h, if_true]
      refine List.Pairwise.cons ?_ hp
      intro c hc
      rcases List.mem_cons.1 hc with h1 | h1
      · subst h1; exact h
      · exact htrans a b c h (List.rel_of_pairwise_cons hp h1)
    · have hba : le b a = true := (htot a b).resolve_left (by simpa using h)
      simp only [h, Bool.false_eq_true, if_false]
      refine List.Pairwise.cons ?_ (pairwise_insB le htot htrans a t hp.of_cons)
      intro c hc
      rcases (mem_insB le a c t).1 hc with h1 | h1
      · subst h1; exact hba
      · exact List.rel_of_pairwise_cons hp h1

theorem pairwise_isortB {α : Type} (le : α → α → Bool)
    (htot : ∀ x y, le x y = true ∨ le y x = true)
    (htrans : ∀ x y z, le x y = true → le y z = true → le x z = true) :
    ∀ (l : List α), List.Pairwise (fun x y => le x y = true) (isortB le l)
  | [] => List.Pairwise.nil
  | a :: t => by
    simp only [isortB]
    exact pairwise_insB le htot htrans a (isortB le t) (pairwise_isortB le htot htrans t)

theorem withIdx_map_snd {α : Type} : ∀ (i : Nat) (l : List α),
    (withIdx i l).map Prod.snd = l
  | _, [] => rfl
  | i, a :: t => by simp [withIdx, withIdx_map_snd (i + 1) t]

theorem mem_withIdx {α : Type} : ∀ (i : Nat) (l : List α) (p : Nat × α),
    p ∈ withIdx i l → ∃ k, k < l.length ∧ p.1 = i + k ∧ l.get? k = some p.2
  | i, [], p => by simp [withIdx]
  | i, a :: t, p => by
    simp only [withIdx, List.mem_cons]
    intro hp
    rcases hp with hp | hp
    · exact ⟨0, Nat.succ_pos _, by simp [hp], by simp [hp]⟩
    · obtain ⟨k, hk, h1, h2⟩ := mem_withIdx (i + 1) t p hp
      exact ⟨k + 1, Nat.succ_lt_succ hk, by omega, by simpa using h2⟩

theorem withIdx_fst_lt {α : Type} : ∀ (i : Nat) (l : List α),
    List.Pairwise (fun p q => p.1 < q.1) (withIdx i l)
  | _, [] => List.Pairwise.nil
  | i, a :: t => by
    refine List.Pairwise.cons ?_ (withIdx_fst_lt (i + 1) t)
    intro q hq
    obtain ⟨k, _, h1, _⟩ := mem_withIdx (i + 1) t q hq
    omega

theorem rankLeB_total {α : Type} (key : α → Nat) (p q : Nat × α) :
    rankLeB key p q = true ∨ rankLeB key q p = true := by
  simp only [rankLeB, Bool.or_eq_true, Bool.and_eq_true, decide_eq_true_eq]
  omega

theorem rankLeB_trans {α : Type} (key : α → Nat) (p q r : Nat × α)
    (h1 : rankLeB key p q = true) (h2 : rankLeB key q r = true) :
    rankLeB key p r = true := by
  simp only [rankLeB, Bool.or_eq_true, Bool.and_eq_true, decide_eq_true_eq] at h1 h2 ⊢
  omega

theorem pySortDesc_perm {α : Type} (key : α → Nat) (l : List α) :
    (pySortDesc key l).Perm l := by
  unfold pySortDesc
  have h := (isortB_perm (rankLeB key) (withIdx 0 l)).map Prod.snd
  rwa [withIdx_map_snd] at h

theorem idxOfStr_cons (a b : String) (l : List String) :
    idxOfStr a (b :: l) = if a = b then 0 else idxOfStr a l + 1 := rfl

theorem mem_dedupFirstAux : ∀ (l seen : List String) (a : String),
    a ∈ dedupFirstAux seen l ↔ a ∈ l ∧ a ∉ seen
  | [], seen, a => by simp [dedupFirstAux]
  | w :: ws, seen, a => by
    by_cases h : memB w seen
    · have hw : w ∈ seen := (memB_iff w seen).1 h
      rw [dedupFirstAux, if_pos h, mem_dedupFirstAux ws seen a]
      constructor
      · rintro ⟨h1, h2⟩
        exact ⟨List.mem_cons_of_mem _ h1, h2⟩
      · rintro ⟨h1, h2⟩
        rcases List.mem_cons.1 h1 with h3 | h3
        · exact absurd (h3 ▸ hw) h2
        · exact ⟨h3, h2⟩
    · have hw : w ∉ seen := fun hmem => h ((memB_iff w seen).2 hmem)
      rw [dedupFirstAux, if_neg h]
      simp only [List.mem_cons]
      rw [mem_dedupFirstAux ws (w :: seen) a]
      constructor
      · rintro (h1 | ⟨h1, h2⟩)
        · exact ⟨Or.inl h1, h1 ▸ hw⟩
        · exact ⟨Or.inr h1, fun hs => h2 (List.mem_cons_of_mem _ hs)⟩
      · rintro ⟨h1, h2⟩
        by_cases haw : a = w
        · exact Or.inl haw
        · right
          rcases h1 with h1 | h1
          · exact absurd h1 haw
          · refine ⟨h1, fun hs => ?_⟩
            rcases List.mem_cons.1 hs with h3 | h3
            · exact haw h3
            · exact h2 h3

theorem pairwise_dedupFirstAux :
    ∀ (l seen : List String),
      List.Pairwise (fun a b => idxOfStr a l < idxOfStr b l) (dedupFirstAux seen l)
  | [], _ => List.Pairwise.nil
  | w :: ws, seen => by
    by_cases h : memB w seen
    · rw [dedupFirstAux, if_pos h]
      have hw : w ∈ seen := (memB_iff w seen).1 h
      refine (pairwise_dedupFirstAux ws seen).imp_of_mem ?_
      intro a b ha hb hab
      have ha2 := (mem_dedupFirstAux ws seen a).1 ha
      have hb2 := (mem_dedupFirstAux ws seen b).1 hb
      have haw : a ≠ w := fun he => ha2.2 (he ▸ hw)
      have hbw : b ≠ w := fun he => hb2.2 (he ▸ hw)
      rw [idxOfStr_cons, if_neg haw, idxOfStr_cons, if_neg hbw]
      omega
    · rw [dedupFirstAux, if_neg h]
      refine List.Pairwise.cons ?_ ?_
      · intro b hb
        have hb2 := (mem_dedupFirstAux ws (w :: seen) b).1 hb
        have hbw : b ≠ w := fun he => hb2.2 (he ▸ List.mem_cons_self w seen)
        rw [idxOfStr_cons, if_pos rfl, idxOfStr_cons, if_neg hbw]
        omega
      · refine (pairwise_dedupFirstAux ws (w :: seen)).imp_of_mem ?_
        intro a b ha hb hab
        have ha2 := (mem_dedupFirstAux ws (w :: seen) a).1 ha
        have hb2 := (mem_dedupFirstAux ws (w :: seen) b).1 hb
        have haw : a ≠ w := fun he => ha2.2 (he ▸ List.mem_cons_self w seen)
        have hbw : b ≠ w := fun he => hb2.2 (he ▸ List.mem_cons_self w seen)
        rw [idxOfStr_cons, if_neg haw, idxOfStr_cons, if_neg hbw]
        omega

theorem mem_dedupFirst (l : List String) (a : String) :
    a ∈ dedupFirst l ↔ a ∈ l := by
  rw [dedupFirst, mem_dedupFirstAux]
  simp

theorem nodup_dedupFirst (l : List String) : (dedupFirst l).Nodup := by
  have h := pairwise_dedupFirstAux l []
  exact h.imp (fun {a b} hlt he => by subst he; exact Nat.lt_irrefl _ hlt)

theorem pairwise_dedupFirst (l : List String) :
    List.Pairwise (fun a b => idxOfStr a l < idxOfStr b l) (dedupFirst l) :=
  pairwise_dedupFirstAux l []

theorem idxOfStr_filter_lt (p : String → Bool) :
    ∀ (l : List String) (a b : String), a ∈ l.filter p → b ∈ l.filter p →
      idxOfStr a (l.filter p) < idxOfStr b (l.filter p) →
      idxOfStr a l < idxOfStr b l
  | [], a, b, ha, _, _ => by simp at ha
  | c :: t, a, b, ha, hb, hab => by
    by_cases hc : p c
    · rw [List.filter_cons_of_pos hc] at ha hb hab
      by_cases hac : a = c
      · have hbc : b ≠ c := by
          intro he
          have hab2 := hab
          rw [idxOfStr_cons, if_pos hac, idxOfStr_cons, if_pos he] at hab2
          exact Nat.lt_irrefl 0 hab2
        rw [idxOfStr_cons, if_pos hac, idxOfStr_cons, if_neg hbc]
        exact Nat.succ_pos _
      · by_cases hbc : b = c
        · exfalso
          rw [idxOfStr_cons, if_neg hac, idxOfStr_cons, if_pos hbc] at hab
          omega
        · rw [idxOfStr_cons, if_neg hac, idxOfStr_cons, if_neg hbc] at hab
          have ha2 : a ∈ t.filter p := by
            rcases List.mem_cons.1 ha with h1 | h1
            · exact absurd h1 hac
            · exact h1
          have hb2 : b ∈ t.filter p := by
            rcases List.mem_cons.1 hb with h1 | h1
            · exact absurd h1 hbc
            · exact h1
          have := idxOfStr_filter_lt p t a b ha2 hb2 (by omega)
          rw [idxOfStr_cons, if_neg hac, idxOfStr_cons, if_neg hbc]
          omega
    · rw [List.filter_cons_of_neg hc] at ha hb hab
      have hpa : p a = true := (List.mem_filter.1 ha).2
      have hpb : p b = true := (List.mem_filter.1 hb).2
      have hac : a ≠ c := fun he => by
        rw [he] at hpa
        rw [hpa] at hc
        exact hc rfl
      have hbc : b ≠ c := fun he => by
        rw [he] at hpb
        rw [hpb] at hc
        exact hc rfl
      have := idxOfStr_filter_lt p t a b ha hb hab
      rw [idxOfStr_cons, if_neg hac, idxOfStr_cons, if_neg hbc]
      omega

theorem pySortDesc_pairwise {α : Type} (key : α → Nat) (l : List α) (R : α → α → Prop)
    (h1 : ∀ a b, a ∈ l → b ∈ l → key b < key a → R a b)
    (h2 : ∀ a b ia ib, ia < ib → l.get? ia = some a → l.get? ib = some b →
      key a = key b → R a b) :
    List.Pairwise R (pySortDesc key l) := by
  unfold pySortDesc
  have hsorted := pairwise_isortB (rankLeB key) (rankLeB_total key) (rankLeB_trans key)
    (withIdx 0 l)
  have hperm := isortB_perm (rankLeB key) (withIdx 0 l)
  have hnd : (List.map Prod.fst (withIdx 0 l)).Nodup := by
    have hpw : List.Pairwise (fun a b => a ≠ b) (List.map Prod.fst (withIdx 0 l)) := by
      rw [List.pairwise_map]
      exact (withIdx_fst_lt 0 l).imp (fun h => Nat.ne_of_lt h)
    exact hpw
  have hnd2 : (List.map Prod.fst (isortB (rankLeB key) (withIdx 0 l))).Nodup :=
    ((hperm.map Prod.fst).nodup_iff).2 hnd
  have hfst : List.Pairwise (fun p q : Nat × α => p.1 ≠ q.1)
      (isortB (rankLeB key) (withIdx 0 l)) := List.pairwise_map.1 hnd2
  have hcomb := hsorted.and hfst
  rw [List.pairwise_map]
  refine hcomb.imp_of_mem ?_
  intro p q hp hq hpq
  obtain ⟨hle, hne⟩ := hpq
  have hp2 : p ∈ withIdx 0 l := hperm.subset hp
  have hq2 : q ∈ withIdx 0 l := hperm.subset hq
  obtain ⟨ka, hka, hpa1, hpa2⟩ := mem_withIdx 0 l p hp2
  obtain ⟨kb, hkb, hqb1, hqb2⟩ := mem_withIdx 0 l q hq2
  simp only [rankLeB, Bool.or_eq_true, Bool.and_eq_true, decide_eq_true_eq] at hle
  rcases hle with hlt | ⟨heq, hij⟩
  · exact h1 p.2 q.2 (List.get?_mem hpa2) (List.get?_mem hqb2) hlt
  · have hstrict : ka < kb := by omega
    exact h2 p.2 q.2 ka kb hstrict hpa2 hqb2 heq

theorem create_mcq_some_inv (sentence : String) (kws : List String) (s : List Nat) (card : Card)
    (h : (create_mcq_from_sentence sentence kws s).1 = some card) :
    ∃ target ds opts, target ∈ contentWords sentence ∧
      ds.length = 3 ∧ (∀ x ∈ ds, x ∈ mcqPool kws target) ∧
      opts.Perm (ds ++ [target]) ∧ card = mcqBuild sentence target opts := by
  by_cases hcw : (contentWords sentence).isEmpty
  · rw [create_mcq_from_sentence, if_pos hcw] at h
    exact absurd h (by simp)
  · have hne : contentWords sentence ≠ [] := by
      intro he
      rw [he] at hcw
      exact hcw rfl
    rw [create_mcq_from_sentence, if_neg hcw] at h
    simp only at h
    set target := (randChoiceStr (contentWords sentence) s).1 with htar
    set smp := pySample (min 3 (mcqPool kws target).length) (mcqPool kws target)
      (randChoiceStr (contentWords sentence) s).2 with hsmp
    set shf := pyShuffle (smp.1 ++ [target]) smp.2 with hshf
    have hpool3 : 3 ≤ (mcqPool kws target).length := by
      rw [mcqPool]
      by_cases hp : (kws.filter (fun w => decide (w ≠ target) && decide (2 < w.length))).length < 3
      · rw [if_pos hp]
        rw [List.length_append]
        simp [generalDistractors]
      · rw [if_neg hp]
        omega
    have hmin : min 3 (mcqPool kws target).length = 3 := Nat.min_eq_left hpool3
    refine ⟨target, smp.1, shf.1, randChoiceStr_mem _ s hne, ?_, ?_, ?_, ?_⟩
    · rw [hsmp]
      unfold pySample
      rw [hmin]
      exact pickGo_length 3 _ _ (by omega)
    · intro x hx
      exact pickGo_subset _ _ _ x hx
    · exact pyShuffle_perm _ _
    · have := Option.some.inj h
      exact this.symm

theorem mem_mcqPool_ne_target (kws : List String) (target x : String)
    (h3 : 3 ≤ (kws.filter (fun k => decide (k ≠ target) && decide (2 < k.length))).length)
    (hx : x ∈ mcqPool kws target) : x ≠ target := by
  rw [mcqPool, if_neg (by omega)] at hx
  have := (List.mem_filter.1 hx).2
  simp only [Bool.and_eq_true, decide_eq_true_eq] at this
  exact this.1

/-- C1 (amended): every MCQ card has 4 options, the recorded answer occurs
in the options at least once, and `options[correct_index]` is the answer;
the answer occurs exactly once provided the keyword-derived distractor pool
(keywords other than the blanked word, of length above 2) has at least 3
entries for every content word, i.e. whenever the generic padding list
cannot be drawn from. -/
theorem claim_C1_amended (sentence : String) (kws : List String) (s : List Nat) (card : Card)
    (h : (create_mcq_from_sentence sentence kws s).1 = some card) :
    card.optionsOf.length = 4 ∧
    1 ≤ card.optionsOf.count card.answerOf ∧
    card.optionsOf.getD card.correctIdx "" = card.answerOf ∧
    ((∀ w ∈ contentWords sentence,
        3 ≤ (kws.filter (fun k => decide (k ≠ w) && decide (2 < k.length))).length) →
      card.optionsOf.count card.answerOf = 1) := by
  obtain ⟨target, ds, opts, htmem, hdlen, hdsub, hperm, hcard⟩ :=
    create_mcq_some_inv sentence kws s card h
  subst hcard
  have hopts : (mcqBuild sentence target opts).optionsOf = opts := rfl
  have hans : (mcqBuild sentence target opts).answerOf = target := rfl
  have hidx : (mcqBuild sentence target opts).correctIdx = idxOfStr target opts := rfl
  rw [hopts, hans, hidx]
  have hlen : opts.length = 4 := by
    rw [hperm.length_eq, List.length_append, hdlen]
    rfl
  have hcnt : opts.count target = ds.count target + 1 := by
    rw [hperm.count_eq target, List.count_append]
    simp
  have htin : target ∈ opts := by
    rw [← List.count_pos_iff, hcnt]
    omega
  refine ⟨hlen, ?_, ?_, ?_⟩
  · rw [hcnt]
    omega
  · exact getD_idxOfStr target opts htin ""
  · intro hall
    have h3 := hall target htmem
    have hnotin : target ∉ ds := by
      intro hmem
      exact mem_mcqPool_ne_target kws target target h3 (hdsub target hmem) rfl
    rw [hcnt, List.count_eq_zero.2 hnotin]

/-- C1 counterexample: with an empty keyword list the distractor pool is
padded with the generic word list, which contains the content word
`concept`; a run of the generator then returns a card whose options list
contains the recorded answer twice, refuting the claim that the answer
occurs exactly once in every returned card. -/
theorem claim_C1_counterexample :
    (create_mcq_from_sentence "concept concept concept concept" []
        (List.replicate 12 0)).1 =
      some (Card.mcq "Complete the sentence: ________ concept concept concept"
        ["concept", "element", "process", "concept"] "concept" 0
        "The correct answer is \x27concept\x27 based on the context.") ∧
    (["concept", "element", "process", "concept"].count "concept") ≠ 1 := by
  exact ⟨by decide, by decide⟩

/-- Witness for C1 (amended) at a concrete input. -/
theorem claim_C1_witness :
    (create_mcq_from_sentence "alpha bravo gamma delta" ["first", "second", "third", "fourth"]
        (List.replicate 12 0)).1 =
      some (Card.mcq "Complete the sentence: ________ bravo gamma delta"
        ["first", "second", "third", "alpha"] "alpha" 3
        "The correct answer is \x27alpha\x27 based on the context.") ∧
    (Card.mcq "Complete the sentence: ________ bravo gamma delta"
        ["first", "second", "third", "alpha"] "alpha" 3
        "The correct answer is \x27alpha\x27 based on the context.").optionsOf.count
      (Card.mcq "Complete the sentence: ________ bravo gamma delta"
        ["first", "second", "third", "alpha"] "alpha" 3
        "The correct answer is \x27alpha\x27 based on the context.").answerOf = 1 := by
  refine ⟨by decide, ?_⟩
  exact (claim_C1_amended "alpha bravo gamma delta" ["first", "second", "third", "fourth"]
    (List.replicate 12 0) _ (by decide)).2.2.2 (by decide)

theorem contentWords_answer_ne_nil (sentence target : String)
    (h : target ∈ contentWords sentence) : target.data ≠ [] := by
  have h2 := (List.mem_filter.1 h).2
  simp only [elig, Bool.and_eq_true, decide_eq_true_eq] at h2
  have h3 : 3 < target.length := h2.2
  intro he
  have : target.length = 0 := by
    show target.data.length = 0
    rw [he]
    rfl
  omega

/-- C4 (amended): the question text of every MCQ card is the fixed prefix
followed by the source sentence in which the first literal substring
occurrence of the chosen answer word, when one exists, is replaced by the
blank marker; when the (lowercased) answer does not occur literally in the
sentence — for instance because the word appears only capitalized — the
sentence is kept unchanged and the question contains no blank.  The answer
is always one of the sentence content words (alphanumeric, longer than 3,
not a stopword). -/
theorem claim_C4_amended (sentence : String) (kws : List String) (s : List Nat) (card : Card)
    (h : (create_mcq_from_sentence sentence kws s).1 = some card) :
    card.answerOf ∈ contentWords sentence ∧
    card.questionOf = "Complete the sentence: " ++ pyReplaceFirst sentence card.answerOf blankMarker ∧
    (hasSubstr sentence card.answerOf = true →
      ∃ a b : List Char, sentence.data = a ++ card.answerOf.data ++ b ∧
        card.questionOf.data =
          ("Complete the sentence: ").data ++ a ++ blankMarker.data ++ b ∧
        (∀ a2 b2 : List Char, sentence.data = a2 ++ card.answerOf.data ++ b2 →
          a.length ≤ a2.length)) ∧
    (hasSubstr sentence card.answerOf = false →
      card.questionOf = "Complete the sentence: " ++ sentence) := by
  obtain ⟨target, ds, opts, htmem, _, _, _, hcard⟩ :=
    create_mcq_some_inv sentence kws s card h
  subst hcard
  have hans : (mcqBuild sentence target opts).answerOf = target := rfl
  have hq : (mcqBuild sentence target opts).questionOf =
      "Complete the sentence: " ++ pyReplaceFirst sentence target blankMarker := rfl
  rw [hans, hq]
  refine ⟨htmem, rfl, ?_, ?_⟩
  · intro hinf
    obtain ⟨a, b, hsen, hrepl, hmin⟩ :=
      replFirst_spec blankMarker.data target.data (contentWords_answer_ne_nil sentence target htmem)
        sentence.data hinf
    refine ⟨a, b, hsen, ?_, hmin⟩
    show ("Complete the sentence: ").data ++ (pyReplaceFirst sentence target blankMarker).data =
      ("Complete the sentence: ").data ++ a ++ blankMarker.data ++ b
    show ("Complete the sentence: ").data ++ replFirst blankMarker.data target.data sentence.data =
      ("Complete the sentence: ").data ++ a ++ blankMarker.data ++ b
    rw [hrepl]
    simp [List.append_assoc]
  · intro hninf
    have hne : replFirst blankMarker.data target.data sentence.data = sentence.data :=
      replFirst_unchanged blankMarker.data target.data sentence.data hninf
    show "Complete the sentence: " ++ pyReplaceFirst sentence target blankMarker =
      "Complete the sentence: " ++ sentence
    have : pyReplaceFirst sentence target blankMarker = sentence := by
      show String.mk (replFirst blankMarker.data target.data sentence.data) = sentence
      rw [hne]
    rw [this]

/-- C4 counterexample: the generator lowercases tokens before choosing the
answer, but replaces in the original sentence; on a sentence whose chosen
content word appears only capitalized, the returned question equals the
prefix plus the unchanged sentence and contains no blank marker, refuting
the claim that the first occurrence of the answer word is always replaced
by a blank marker. -/
theorem claim_C4_counterexample :
    (create_mcq_from_sentence "Mitochondria produce energy quickly"
        ["apple", "bread", "cloud"] (List.replicate 12 0)).1 =
      some (Card.mcq "Complete the sentence: Mitochondria produce energy quickly"
        ["apple", "bread", "cloud", "mitochondria"] "mitochondria" 3
        "The correct answer is \x27mitochondria\x27 based on the context.") ∧
    hasSubstr "Complete the sentence: Mitochondria produce energy quickly" blankMarker = false ∧
    hasSubstr "Mitochondria produce energy quickly" "mitochondria" = false := by
  refine ⟨by decide, by decide, by decide⟩

/-- Witness for C4 (amended) at a concrete input. -/
theorem claim_C4_witness :
    ((create_mcq_from_sentence "alpha bravo gamma delta" ["first", "second", "third", "fourth"]
        (List.replicate 12 0)).1 =
      some (Card.mcq "Complete the sentence: ________ bravo gamma delta"
        ["first", "second", "third", "alpha"] "alpha" 3
        "The correct answer is \x27alpha\x27 based on the context.")) ∧
    (Card.mcq "Complete the sentence: ________ bravo gamma delta"
        ["first", "second", "third", "alpha"] "alpha" 3
        "The correct answer is \x27alpha\x27 based on the context.").answerOf ∈
      contentWords "alpha bravo gamma delta" := by
  refine ⟨by decide, ?_⟩
  exact (claim_C4_amended "alpha bravo gamma delta" ["first", "second", "third", "fourth"]
    (List.replicate 12 0) _ (by decide)).1

/-- C5 (amended): on a sentence of at least 8 words the generator always
emits the true card.  When there are no content words or no keywords it
emits only the true card.  Otherwise it scans the content words left to
right, drawing one keyword per word from the random stream with no retry:
at the first position whose drawn keyword differs case-insensitively from
its word it also emits a false card substituting that drawn keyword for the
first occurrence of that word, and when every drawn keyword matches its
word it emits only the true card.  Consequently, emitting only the true
card on every random stream holds exactly when there are no content words,
or no keywords, or every keyword matches every content word
case-insensitively; in particular the existence of a keyword differing from
every content word neither forces nor is necessary for a false card. -/
theorem claim_C5_amended (sentence : String) (kws : List String) (s : List Nat)
    (h8 : 8 ≤ (pySplitWS sentence).length) :
    ((tfContentWords sentence = [] ∨ kws = []) →
      (create_true_false_from_sentence sentence kws s).1 = some [trueCardOf sentence]) ∧
    (kws ≠ [] → ∀ i, i < (tfContentWords sentence).length →
      pyLower (tfDraw kws s i) ≠ pyLower ((tfContentWords sentence).getD i "") →
      (∀ j, j < i → pyLower (tfDraw kws s j) = pyLower ((tfContentWords sentence).getD j "")) →
      (create_true_false_from_sentence sentence kws s).1 =
        some [trueCardOf sentence,
          falseCardOf sentence ((tfContentWords sentence).getD i "") (tfDraw kws s i)]) ∧
    ((∀ i, i < (tfContentWords sentence).length →
        pyLower (tfDraw kws s i) = pyLower ((tfContentWords sentence).getD i "")) →
      (create_true_false_from_sentence sentence kws s).1 = some [trueCardOf sentence]) ∧
    ((∀ s2, (create_true_false_from_sentence sentence kws s2).1 = some [trueCardOf sentence]) ↔
      (tfContentWords sentence = [] ∨ kws = [] ∨
        ∀ w ∈ tfContentWords sentence, ∀ k ∈ kws, pyLower k = pyLower w)) := by
  have hlt : ¬ (pySplitWS sentence).length < 8 := by omega
  have hdeg : ∀ s2 : List Nat, ((tfContentWords sentence).isEmpty || kws.isEmpty) = true →
      (create_true_false_from_sentence sentence kws s2).1 = some [trueCardOf sentence] := by
    intro s2 hg
    rw [create_true_false_from_sentence, if_neg hlt, if_pos hg]
  have hmain : ∀ s2 : List Nat, ¬ ((tfContentWords sentence).isEmpty || kws.isEmpty) = true →
      (create_true_false_from_sentence sentence kws s2).1 =
        some (tfGo sentence kws (tfContentWords sentence) s2).1 := by
    intro s2 hg
    rw [create_true_false_from_sentence, if_neg hlt, if_neg hg]
  have hdeg2 : ∀ s2 : List Nat, (tfContentWords sentence = [] ∨ kws = []) →
      (create_true_false_from_sentence sentence kws s2).1 = some [trueCardOf sentence] := by
    intro s2 h
    refine hdeg s2 ?_
    rcases h with h | h <;> simp [h]
  refine ⟨hdeg2 s, ?_, ?_, ?_⟩
  · intro hk i hi hdiff hbefore
    have hcne : tfContentWords sentence ≠ [] := by
      intro he
      rw [he] at hi
      simp at hi
    have hg : ¬ ((tfContentWords sentence).isEmpty || kws.isEmpty) = true := by
      simp only [Bool.or_eq_true, List.isEmpty_iff, not_or]
      exact ⟨hcne, hk⟩
    rw [hmain s hg,
      tfGo_first_diff sentence kws (tfContentWords sentence) s i hi hdiff hbefore]
  · intro hall
    by_cases hg : ((tfContentWords sentence).isEmpty || kws.isEmpty) = true
    · exact hdeg s hg
    · rw [hmain s hg, tfGo_drawn_match sentence kws (tfContentWords sentence) s hall]
  · constructor
    · intro hforced
      by_contra hneg
      push_neg at hneg
      obtain ⟨hcne, hkne, hx⟩ := hneg
      obtain ⟨w, hw, k, hkm, hne⟩ := hx
      obtain ⟨s2, hs2⟩ := tfGo_exists_stream sentence kws hkne (tfContentWords sentence)
        ⟨w, hw, k, hkm, hne⟩
      have hg : ¬ ((tfContentWords sentence).isEmpty || kws.isEmpty) = true := by
        simp only [Bool.or_eq_true, List.isEmpty_iff, not_or]
        exact ⟨hcne, hkne⟩
      have := hforced s2
      rw [hmain s2 hg] at this
      exact hs2 (Option.some.inj this)
    · intro h s2
      rcases h with h | h | h
      · exact hdeg2 s2 (Or.inl h)
      · exact hdeg2 s2 (Or.inr h)
      · by_cases hg : ((tfContentWords sentence).isEmpty || kws.isEmpty) = true
        · exact hdeg s2 hg
        · have hk : kws ≠ [] := by
            simp only [Bool.or_eq_true, List.isEmpty_iff, not_or] at hg
            exact hg.2
          rw [hmain s2 hg,
            tfGo_all_match sentence kws hk (tfContentWords sentence) s2 h]

/-- C5 counterexample: in the sentence the keyword `apple` matches the
content word `Apple` case-insensitively, so no keyword differs from every
content word and the claim predicts that only the true card is emitted;
the code nevertheless emits a false card as well, because it draws one
keyword per content word without retrying and `apple` differs from the
second content word `trees`. -/
theorem claim_C5_counterexample :
    8 ≤ (pySplitWS "Apple trees and banana trees grow very tall here").length ∧
    (¬ ∃ k ∈ ["apple"], ∀ w ∈ tfContentWords "Apple trees and banana trees grow very tall here",
        pyLower k ≠ pyLower w) ∧
    ((create_true_false_from_sentence "Apple trees and banana trees grow very tall here"
        ["apple"] (List.replicate 12 0)).1).map List.length = some 2 := by
  refine ⟨by decide, by decide, by decide⟩

/-- Witness for C5 (amended) at concrete inputs: the second conjunct is
applied at position 1 of the content words of the first sentence, where its
difference and all-match-before hypotheses genuinely hold, and the reverse
direction of the final equivalence is applied at a second sentence on which
every keyword matches every content word. -/
theorem claim_C5_witness :
    8 ≤ (pySplitWS "Apple trees and banana trees grow very tall here").length ∧
    (["apple"] : List String) ≠ [] ∧
    1 < (tfContentWords "Apple trees and banana trees grow very tall here").length ∧
    pyLower (tfDraw ["apple"] (List.replicate 12 0) 1) ≠
      pyLower ((tfContentWords "Apple trees and banana trees grow very tall here").getD 1 "") ∧
    (∀ j, j < 1 → pyLower (tfDraw ["apple"] (List.replicate 12 0) j) =
      pyLower ((tfContentWords "Apple trees and banana trees grow very tall here").getD j "")) ∧
    (create_true_false_from_sentence "Apple trees and banana trees grow very tall here"
        ["apple"] (List.replicate 12 0)).1 =
      some [trueCardOf "Apple trees and banana trees grow very tall here",
        falseCardOf "Apple trees and banana trees grow very tall here"
          ((tfContentWords "Apple trees and banana trees grow very tall here").getD 1 "")
          (tfDraw ["apple"] (List.replicate 12 0) 1)] ∧
    8 ≤ (pySplitWS "Apple apple is a and the apple Apple").length ∧
    (∀ w ∈ tfContentWords "Apple apple is a and the apple Apple",
      ∀ k ∈ (["apple"] : List String), pyLower k = pyLower w) ∧
    (create_true_false_from_sentence "Apple apple is a and the apple Apple" ["apple"]
        [3, 1, 4, 1, 5]).1 = some [trueCardOf "Apple apple is a and the apple Apple"] := by
  refine ⟨by decide, by decide, by decide, by decide, by decide, ?_, by decide, by decide, ?_⟩
  · exact (claim_C5_amended "Apple trees and banana trees grow very tall here" ["apple"]
      (List.replicate 12 0) (by decide)).2.1 (by decide) 1 (by decide) (by decide) (by decide)
  · exact ((claim_C5_amended "Apple apple is a and the apple Apple" ["apple"] [3, 1, 4, 1, 5]
      (by decide)).2.2.2).2 (Or.inr (Or.inr (by decide))) [3, 1, 4, 1, 5]

/-- C10: a sentence with fewer than 8 whitespace-separated words makes the
true/false generator return no cards at all, whatever the keyword list and
random stream. -/
theorem claim_C10 (sentence : String) (kws : List String) (s : List Nat)
    (h : (pySplitWS sentence).length < 8) :
    (create_true_false_from_sentence sentence kws s).1 = none := by
  rw [create_true_false_from_sentence, if_pos h]

/-- Witness for C10 at a concrete input. -/
theorem claim_C10_witness :
    (pySplitWS "alpha beta").length < 8 ∧
    (create_true_false_from_sentence "alpha beta" ["gamma"] [0, 1, 2]).1 = none :=
  ⟨by decide, claim_C10 "alpha beta" ["gamma"] [0, 1, 2] (by decide)⟩

/-- C2: the fill-blank generator returns no card on sentences of fewer than
10 words or when no word qualifies; otherwise it blanks the first word
(left to right) whose punctuation-stripped lowercased form is a keyword
longer than 3 characters, records that original word as the answer, and the
blanked word normalizes to the same string as the recorded answer. -/
theorem claim_C2 (sentence : String) (kws : List String) :
    ((pySplitWS sentence).length < 10 → create_fill_blank_from_sentence sentence kws = none) ∧
    ((∀ w ∈ pySplitWS sentence, fbQual kws w = false) →
      create_fill_blank_from_sentence sentence kws = none) ∧
    (∀ i, 10 ≤ (pySplitWS sentence).length → i < (pySplitWS sentence).length →
      fbQual kws ((pySplitWS sentence).getD i "") = true →
      (∀ j, j < i → fbQual kws ((pySplitWS sentence).getD j "") = false) →
      ∃ card, create_fill_blank_from_sentence sentence kws = some card ∧
        card.answerOf = (pySplitWS sentence).getD i "" ∧
        card.questionOf =
          "Fill in the blank: " ++ joinSp ((pySplitWS sentence).set i blankMarker) ∧
        memB (cleanWord card.answerOf) kws = true ∧
        3 < (cleanWord card.answerOf).length ∧
        cleanWord ((pySplitWS sentence).getD i "") = cleanWord card.answerOf) := by
  refine ⟨?_, ?_, ?_⟩
  · intro h
    rw [create_fill_blank_from_sentence]
    simp only [if_pos h]
  · intro h
    have hfq : findQual kws (pySplitWS sentence) = none := (findQual_none_iff kws _).2 h
    rw [create_fill_blank_from_sentence]
    simp only [hfq]
    split <;> rfl
  · intro i h10 hi hq hprev
    have hfq := findQual_first kws (pySplitWS sentence) i hi hq hprev
    have hq2 := hq
    simp only [fbQual, Bool.and_eq_true, decide_eq_true_eq] at hq2
    refine ⟨Card.fillBlank
        ("Fill in the blank: " ++ joinSp ((pySplitWS sentence).set i blankMarker))
        ((pySplitWS sentence).getD i "")
        ("The correct word is \x27" ++ (pySplitWS sentence).getD i "" ++
          "\x27 based on the context."), ?_, rfl, rfl, hq2.1, hq2.2, rfl⟩
    rw [create_fill_blank_from_sentence]
    simp only [hfq, if_neg (by omega : ¬ (pySplitWS sentence).length < 10)]

/-- C3: keyword extraction is a total function of the input text (the
fallback tokenizer and fallback stopword set are self-contained, so the
embedding is totally defined), and on the empty string it returns the
empty keyword list for every requested count. -/
theorem claim_C3 (n : Nat) : extract_keywords "" n = [] := by
  have h : pySortDesc (fun w => (filteredWords "").count w) (dedupFirst (filteredWords "")) =
      ([] : List String) := rfl
  rw [extract_keywords, h]
  exact List.take_nil

theorem generate_eq_nil_of (text : String) (n1 n2 n3 : Nat) (s : List Nat)
    (h : (pyStrip text).length < 100 ∨ (extract_key_sentences text 25).1 = []) :
    generate_flashcards text n1 n2 n3 s = [] := by
  rcases h with h | h
  · rw [generate_flashcards, if_pos (Or.inr h)]
  · rw [generate_flashcards]
    by_cases h0 : text = "" ∨ (pyStrip text).length < 100
    · rw [if_pos h0]
    · rw [if_neg h0]
      simp only [h, List.isEmpty_nil, if_true]

/-- C7: deck generation returns the empty deck whenever the stripped text is
shorter than 100 characters or no sentence qualifies for selection, and in
particular on every text shorter than 100 characters, for all quota
settings and random streams. -/
theorem claim_C7 (text : String) (n1 n2 n3 : Nat) (s : List Nat) :
    (((pyStrip text).length < 100 ∨ (extract_key_sentences text 25).1 = []) →
      generate_flashcards text n1 n2 n3 s = []) ∧
    (text.length < 100 → generate_flashcards text n1 n2 n3 s = []) := by
  refine ⟨generate_eq_nil_of text n1 n2 n3 s, ?_⟩
  intro h
  refine generate_eq_nil_of text n1 n2 n3 s (Or.inl ?_)
  have := pyStrip_length_le text
  omega

/-- Witness for C7 at a concrete input. -/
theorem claim_C7_witness :
    ("hi" : String).length < 100 ∧ generate_flashcards "hi" 2 2 1 [] = [] :=
  ⟨by decide, (claim_C7 "hi" 2 2 1 []).2 (by decide)⟩

/-- C9: the deck is a pure function of the input text, the quotas and the
random stream; the embedding threads every use of randomness
(`random.choice`, `random.sample`, `random.shuffle`) through an explicit
stream, so two runs from the same stream state produce identical decks. -/
theorem claim_C9 (text : String) (n1 n2 n3 : Nat) (s t : List Nat) (h : s = t) :
    generate_flashcards text n1 n2 n3 s = generate_flashcards text n1 n2 n3 t := by
  rw [h]

/-- Witness for C9 at a concrete input. -/
theorem claim_C9_witness :
    ([0, 1, 2] : List Nat) = [0, 1, 2] ∧
    generate_flashcards "" 2 2 1 [0, 1, 2] = generate_flashcards "" 2 2 1 [0, 1, 2] :=
  ⟨rfl, claim_C9 "" 2 2 1 [0, 1, 2] [0, 1, 2] rfl⟩

/-- Witness for C2 at a concrete input (the first qualifying word is at
index 7). -/
theorem claim_C2_witness :
    (10 ≤ (pySplitWS "the quick brown fox jumps over the lazy dogs often today").length) ∧
    (∃ card, create_fill_blank_from_sentence
        "the quick brown fox jumps over the lazy dogs often today" ["lazy"] = some card ∧
      card.answerOf =
        (pySplitWS "the quick brown fox jumps over the lazy dogs often today").getD 7 "" ∧
      card.questionOf = "Fill in the blank: " ++
        joinSp ((pySplitWS "the quick brown fox jumps over the lazy dogs often today").set 7
          blankMarker) ∧
      memB (cleanWord card.answerOf) ["lazy"] = true ∧
      3 < (cleanWord card.answerOf).length ∧
      cleanWord ((pySplitWS "the quick brown fox jumps over the lazy dogs often today").getD 7 "")
        = cleanWord card.answerOf) := by
  refine ⟨by decide, ?_⟩
  exact (claim_C2 "the quick brown fox jumps over the lazy dogs often today" ["lazy"]).2.2
    7 (by decide) (by decide) (by decide) (by decide)

theorem mcqLoop_eq_take (kws : List String) (quota : Nat) :
    ∀ (l : List String) (cnt : Nat) (s : List Nat), cnt < quota →
      (mcqLoop kws quota l cnt s).1 = ((mcqAll kws l s).1).take (quota - cnt)
  | [], cnt, s, _ => by simp [mcqLoop, mcqAll]
  | sn :: rest, cnt, s, hcnt => by
    cases hr : (create_mcq_from_sentence sn kws s).1 with
    | none =>
      simp only [mcqLoop, mcqAll, hr]
      exact mcqLoop_eq_take kws quota rest cnt _ hcnt
    | some c =>
      simp only [mcqLoop, mcqAll, hr]
      by_cases hq : quota ≤ cnt + 1
      · rw [if_pos hq]
        have h1 : quota - cnt = 1 := by omega
        rw [h1]
        simp
      · rw [if_neg hq]
        have h2 : quota - cnt = (quota - (cnt + 1)) + 1 := by omega
        rw [h2, List.take_succ_cons]
        rw [mcqLoop_eq_take kws quota rest (cnt + 1) _ (by omega)]

theorem tfLoop_eq_take (kws : List String) (quota : Nat) :
    ∀ (l : List String) (cnt : Nat) (s : List Nat),
      (tfLoop kws quota l cnt s).1 = ((tfAll kws l s).1).take (quota - cnt)
  | [], cnt, s => by simp [tfLoop, tfAll]
  | sn :: rest, cnt, s => by
    by_cases hq : quota ≤ cnt
    · have h0 : quota - cnt = 0 := by omega
      simp [tfLoop, if_pos hq, h0]
    · cases hr : (create_true_false_from_sentence sn kws s).1 with
      | none =>
        simp only [tfLoop, tfAll, if_neg hq, hr]
        exact tfLoop_eq_take kws quota rest cnt _
      | some qs =>
        simp only [tfLoop, tfAll, if_neg hq, hr]
        rw [tfLoop_eq_take kws quota rest (cnt + (qs.take (quota - cnt)).length) _]
        rw [List.take_append_eq_append_take]
        congr 2
        rw [List.length_take]
        rcases Nat.le_total qs.length (quota - cnt) with h | h
        · rw [Nat.min_eq_right h]
          omega
        · rw [Nat.min_eq_left h]
          omega

theorem fillLoop_eq_take (kws : List String) (quota : Nat) :
    ∀ (l : List String) (cnt : Nat),
      fillLoop kws quota l cnt =
        (l.filterMap (fun sn => create_fill_blank_from_sentence sn kws)).take (quota - cnt)
  | [], cnt => by simp [fillLoop]
  | sn :: rest, cnt => by
    by_cases hq : quota ≤ cnt
    · have h0 : quota - cnt = 0 := by omega
      simp [fillLoop, if_pos hq, h0]
    · cases hr : create_fill_blank_from_sentence sn kws with
      | none =>
        have hfm : List.filterMap (fun sn2 => create_fill_blank_from_sentence sn2 kws)
            (sn :: rest) =
            List.filterMap (fun sn2 => create_fill_blank_from_sentence sn2 kws) rest :=
          List.filterMap_cons_none (by simpa using hr)
        simp only [fillLoop, if_neg hq, hr, hfm]
        exact fillLoop_eq_take kws quota rest cnt
      | some c =>
        have hfm : List.filterMap (fun sn2 => create_fill_blank_from_sentence sn2 kws)
            (sn :: rest) =
            c :: List.filterMap (fun sn2 => create_fill_blank_from_sentence sn2 kws) rest :=
          List.filterMap_cons_some (by simpa using hr)
        simp only [fillLoop, if_neg hq, hr, hfm]
        rw [fillLoop_eq_take kws quota rest (cnt + 1)]
        have h2 : quota - cnt = (quota - (cnt + 1)) + 1 := by omega
        rw [h2, List.take_succ_cons]

/-- C6 counterexample: with `num_mcq = 1` the MCQ phase scans only the
first `2 * num_mcq = 2` ranked sentences, which yield no card, and stops
even though the pool still holds a third sentence from which the MCQ
generator does produce a card; the deck comes back empty although the MCQ
quota is unmet and the sentence pool was not exhausted, refuting the claim
that each generator is attempted until its quota is met or the pool is
exhausted. -/
theorem claim_C6_counterexample :
    generate_flashcards c6Text 1 0 0 (List.replicate 12 0) = [] ∧
    (extract_key_sentences c6Text 25).1 =
      ["a a a a a a a a.", "a a a a a a a a.", "a a a a a a zebra a a."] ∧
    ((create_mcq_from_sentence "a a a a a a zebra a a."
        (extract_key_sentences c6Text 25).2 (List.replicate 12 0)).1).isSome = true := by
  refine ⟨by decide, by decide, by decide⟩

/-- C6 (amended): deck assembly attempts the relevant generator on the
ranked sentences in score order with no backtracking; for the true/false
and fill-blank types the phase output equals the first `quota` cards of the
exhaustive left-to-right scan of the whole pool (so each of these phases
runs until its quota is met or the pool is exhausted), while the MCQ phase
equals the first `num_mcq` cards of the exhaustive scan of only the first
`2 * num_mcq` ranked sentences (so its quota can stay unmet while the pool
still holds productive sentences); whenever the guards pass, the returned
deck is a truncation to `num_mcq + num_tf + num_fill` cards of a
permutation of the three concatenated phase outputs, and the deck always
has length at most `num_mcq + num_tf + num_fill`. -/
theorem claim_C6_amended (text : String) (n1 n2 n3 : Nat) (s : List Nat) :
    (generate_flashcards text n1 n2 n3 s).length ≤ n1 + n2 + n3 ∧
    (∀ (kws : List String) (quota : Nat) (l : List String) (cnt : Nat) (s2 : List Nat),
      cnt < quota →
      (mcqLoop kws quota l cnt s2).1 = ((mcqAll kws l s2).1).take (quota - cnt)) ∧
    (∀ (kws : List String) (quota : Nat) (l : List String) (cnt : Nat) (s2 : List Nat),
      (tfLoop kws quota l cnt s2).1 = ((tfAll kws l s2).1).take (quota - cnt)) ∧
    (∀ (kws : List String) (quota : Nat) (l : List String) (cnt : Nat),
      fillLoop kws quota l cnt =
        (l.filterMap (fun sn => create_fill_blank_from_sentence sn kws)).take (quota - cnt)) ∧
    (¬ (text = "" ∨ (pyStrip text).length < 100) →
      (extract_key_sentences text 25).1.isEmpty = false →
      ∃ deck : List Card,
        deck.Perm
          ((mcqLoop (extract_key_sentences text 25).2 n1
              ((extract_key_sentences text 25).1.take (n1 * 2)) 0 s).1 ++
            (tfLoop (extract_key_sentences text 25).2 n2 (extract_key_sentences text 25).1 0
              (mcqLoop (extract_key_sentences text 25).2 n1
                ((extract_key_sentences text 25).1.take (n1 * 2)) 0 s).2).1 ++
            fillLoop (extract_key_sentences text 25).2 n3 (extract_key_sentences text 25).1 0) ∧
        generate_flashcards text n1 n2 n3 s = deck.take (n1 + n2 + n3)) := by
  refine ⟨?_, fun kws quota l cnt s2 h => mcqLoop_eq_take kws quota l cnt s2 h,
    fun kws quota l cnt s2 => tfLoop_eq_take kws quota l cnt s2,
    fun kws quota l cnt => fillLoop_eq_take kws quota l cnt, ?_⟩
  · rw [generate_flashcards]
    by_cases h1 : text = "" ∨ (pyStrip text).length < 100
    · rw [if_pos h1]
      simp
    · rw [if_neg h1]
      by_cases h2 : (extract_key_sentences text 25).1.isEmpty
      · simp only [h2, if_true]
        simp
      · simp only [h2, Bool.false_eq_true, if_false]
        exact List.length_take_le _ _
  · intro hg hpool
    rw [generate_flashcards, if_neg hg]
    simp only [hpool, Bool.false_eq_true, if_false]
    exact ⟨_, pyShuffle_perm _ _, rfl⟩

/-- Witness for C6 (amended) at concrete inputs: the MCQ-phase equation is
applied with its count-below-quota hypothesis discharged, and the
phase-decomposition conjunct is applied at the long `c6Text` input where
both guards genuinely pass. -/
theorem claim_C6_witness :
    (¬ (c6Text = "" ∨ (pyStrip c6Text).length < 100)) ∧
    (extract_key_sentences c6Text 25).1.isEmpty = false ∧
    (0 < 1) ∧
    ((mcqLoop ([] : List String) 1 ["alpha bravo"] 0 ([] : List Nat)).1 =
      ((mcqAll ([] : List String) ["alpha bravo"] ([] : List Nat)).1).take (1 - 0)) ∧
    (∃ deck : List Card,
      deck.Perm
        ((mcqLoop (extract_key_sentences c6Text 25).2 1
            ((extract_key_sentences c6Text 25).1.take (1 * 2)) 0 (List.replicate 12 0)).1 ++
          (tfLoop (extract_key_sentences c6Text 25).2 0 (extract_key_sentences c6Text 25).1 0
            (mcqLoop (extract_key_sentences c6Text 25).2 1
              ((extract_key_sentences c6Text 25).1.take (1 * 2)) 0 (List.replicate 12 0)).2).1 ++
          fillLoop (extract_key_sentences c6Text 25).2 0 (extract_key_sentences c6Text 25).1 0) ∧
      generate_flashcards c6Text 1 0 0 (List.replicate 12 0) = deck.take (1 + 0 + 0)) := by
  refine ⟨by decide, by decide, by decide, ?_, ?_⟩
  · exact (claim_C6_amended c6Text 1 0 0 (List.replicate 12 0)).2.1 [] 1 ["alpha bravo"] 0 []
      (by decide)
  · exact (claim_C6_amended c6Text 1 0 0 (List.replicate 12 0)).2.2.2.2 (by decide) (by decide)

/-- C8: `extract_keywords(text, K)` returns at most `K` pairwise-distinct
tokens, each alphanumeric, not a stopword and longer than 3 characters,
ordered by strictly descending frequency in the tokenized text with ties
broken by the position of each token's first occurrence in the token
stream of the source text. -/
theorem claim_C8 (text : String) (k : Nat) :
    (extract_keywords text k).length ≤ k ∧
    (extract_keywords text k).Nodup ∧
    (∀ w ∈ extract_keywords text k,
      pyIsAlnum w = true ∧ memB w fallbackStopwords = false ∧ 3 < w.length) ∧
    List.Pairwise (fun a b =>
      (safe_word_tokenize text).count b < (safe_word_tokenize text).count a ∨
      ((safe_word_tokenize text).count a = (safe_word_tokenize text).count b ∧
        idxOfStr a (safe_word_tokenize text) < idxOfStr b (safe_word_tokenize text)))
      (extract_keywords text k) := by
  have hext : extract_keywords text k =
      (pySortDesc (fun w => (filteredWords text).count w)
        (dedupFirst (filteredWords text))).take k := rfl
  have hperm := pySortDesc_perm (fun w => (filteredWords text).count w)
    (dedupFirst (filteredWords text))
  have hmem_base : ∀ w ∈ pySortDesc (fun w => (filteredWords text).count w)
      (dedupFirst (filteredWords text)), w ∈ filteredWords text := fun w hw =>
    (mem_dedupFirst (filteredWords text) w).1 (hperm.subset hw)
  have helig : ∀ w ∈ filteredWords text, elig w = true := fun w hw =>
    (List.mem_filter.1 hw).2
  have hcnt : ∀ x ∈ filteredWords text,
      (filteredWords text).count x = (safe_word_tokenize text).count x := by
    intro x hx
    exact List.count_filter (helig x hx)
  refine ⟨?_, ?_, ?_, ?_⟩
  · rw [hext]
    exact List.length_take_le _ _
  · rw [hext]
    exact List.Nodup.sublist (List.take_sublist k _)
      ((hperm.nodup_iff).2 (nodup_dedupFirst (filteredWords text)))
  · intro w hw
    rw [hext] at hw
    have hwb : w ∈ filteredWords text := hmem_base w ((List.take_sublist k _).subset hw)
    have he := helig w hwb
    simp only [elig, Bool.and_eq_true, Bool.not_eq_true', decide_eq_true_eq] at he
    exact ⟨he.1.1, he.1.2, he.2⟩
  · rw [hext]
    refine List.Pairwise.sublist (List.take_sublist k _) ?_
    refine pySortDesc_pairwise (fun w => (filteredWords text).count w)
      (dedupFirst (filteredWords text)) _ ?_ ?_
    · intro a b ha hb hlt
      left
      have ha2 : a ∈ filteredWords text := (mem_dedupFirst (filteredWords text) a).1 ha
      have hb2 : b ∈ filteredWords text := (mem_dedupFirst (filteredWords text) b).1 hb
      rw [← hcnt a ha2, ← hcnt b hb2]
      exact hlt
    · intro a b ia ib hab hga hgb heq
      right
      have hia := List.get?_eq_some.1 hga
      have hib := List.get?_eq_some.1 hgb
      obtain ⟨hlta, hgeta⟩ := hia
      obtain ⟨hltb, hgetb⟩ := hib
      have ha2 : a ∈ filteredWords text :=
        (mem_dedupFirst (filteredWords text) a).1 (List.get?_mem hga)
      have hb2 : b ∈ filteredWords text :=
        (mem_dedupFirst (filteredWords text) b).1 (List.get?_mem hgb)
      constructor
      · rw [← hcnt a ha2, ← hcnt b hb2]
        exact heq
      · have hpw := pairwise_dedupFirst (filteredWords text)
        have h1 := List.pairwise_iff_get.1 hpw ⟨ia, hlta⟩ ⟨ib, hltb⟩ (Fin.mk_lt_mk.2 hab)
        rw [hgeta, hgetb] at h1
        exact idxOfStr_filter_lt elig (safe_word_tokenize text) a b ha2 hb2 h1

/-- Witness for C8 at a concrete input, discharging the membership
hypothesis of its per-token conjunct. -/
theorem claim_C8_witness :
    "apple" ∈ extract_keywords "apple apple banana cherry" 5 ∧
    (pyIsAlnum "apple" = true ∧ memB "apple" fallbackStopwords = false ∧
      3 < ("apple" : String).length) :=
  ⟨by decide, (claim_C8 "apple apple banana cherry" 5).2.2.1 "apple" (by decide)⟩
